import Mathlib

/-!
Verification of the Holdings Reconciliation & Valuation Engine of the
Portfolio-Risk-Exposure-Intelligence repository.

The development shallowly embeds the core of the repository:

* `update_holdings` (src/backend/ingestion.py): the Holdings Reconciler that
  recomputes the `Holding` table from the full transaction list.
* `add_transaction_direct` (src/app/services/portfolio_service.py): the
  incremental per-transaction holding update of the app service layer.
* `get_valuation_history` (src/backend/utils.py): the Valuation Historian
  that replays the ledger against forward-filled historical prices.
* `get_real_time_prices` (src/backend/utils.py): the bulk current-price
  fetch wrapper.
* `get_holdings` / `valuation_history` (src/backend/main.py): the read
  endpoints that enrich holdings with live prices.

Monetary amounts and quantities are modelled as rationals (the Python code
uses floats/ints; rounding of binary floats is not modelled), timestamps as
natural-number day indices, and the price oracle as an explicit argument:
`none` stands for the yfinance call raising (or the result lacking a usable
Close table), which the source catches with a blanket `except`.
-/

/-- ASCII uppercase of one character, as Python's `str.upper` acts on the
ASCII ticker/type strings this repository stores. -/
def upChar (c : Char) : Char := if c.isLower then Char.ofNat (c.toNat - 32) else c

/-- Python's `str.upper`, restricted to ASCII strings (all symbol and type
strings in this repository are ASCII). -/
def pyUpper (s : String) : String := String.mk (s.data.map upChar)

@[simp] theorem pyUpper_BUY : pyUpper "BUY" = "BUY" := by decide

@[simp] theorem pyUpper_SELL : pyUpper "SELL" = "SELL" := by decide

/-- A row of the backend `Transaction` table (src/backend/models.py).
Descriptive metadata columns (stock_name, isin, exchange, geography,
category, order_id, status) are elided: no verified property reads them.
`price` stores the *total* consideration of the transaction, not a unit
price (the 'Value' column of the ingested sheet). `time` is the
`execution_time` as a day index. -/
structure Tx where
  symbol : String
  ty : String
  quantity : ℚ
  price : ℚ
  time : ℕ
deriving Repr, DecidableEq

/-- `tx.type.upper() == 'BUY'` test used throughout the backend. -/
def isBuy (t : Tx) : Bool := pyUpper t.ty = "BUY"

/-- `tx.type.upper() == 'SELL'` test used throughout the backend. -/
def isSell (t : Tx) : Bool := pyUpper t.ty = "SELL"

/-- The per-symbol accumulator `holdings_dict[symbol]` of `update_holdings`
(src/backend/ingestion.py lines 59-81). -/
structure Agg where
  current_quantity : ℚ
  total_buy_quantity : ℚ
  total_buy_value : ℚ
  last_transaction_date : ℕ
deriving Repr, DecidableEq

/-- One iteration of the transaction loop of `update_holdings`
(src/backend/ingestion.py lines 70-81): the last-transaction-date maximum
update, then `BUY` adds to the running quantity and to the cumulative buy
tallies, `SELL` subtracts from the running quantity and clamps a negative
result to zero, and any other type is ignored. -/
def aggStep (a : Agg) (t : Tx) : Agg :=
  let a' : Agg := { a with last_transaction_date := max a.last_transaction_date t.time }
  if isBuy t then
    { a' with
        current_quantity := a'.current_quantity + t.quantity,
        total_buy_quantity := a'.total_buy_quantity + t.quantity,
        total_buy_value := a'.total_buy_value + t.price }
  else if isSell t then
    let q := a'.current_quantity - t.quantity
    { a' with current_quantity := if q < 0 then 0 else q }
  else a'

/-- The accumulator `update_holdings` ends up with for symbol `s` after its
single pass over the transaction list: `none` when no transaction mentions
`s` (the symbol never enters `holdings_dict`).  The dict entry of `s` is
touched only by transactions of `s`, so the interleaved pass equals a fold
over the symbol-filtered subsequence, initialised as in lines 60-68 with
zero tallies and the first transaction's execution time. -/
def aggFor (txs : List Tx) (s : String) : Option Agg :=
  match txs.filter (fun t => t.symbol = s) with
  | [] => none
  | t :: ts => some ((t :: ts).foldl aggStep ⟨0, 0, 0, t.time⟩)

/-- A row of the backend `Holding` table (src/backend/models.py), restricted
to the columns the verified properties read. -/
structure Holding where
  symbol : String
  quantity : ℚ
  avg_price : ℚ
  total_invested : ℚ
  last_transaction_date : ℕ
deriving Repr, DecidableEq

/-- The `Holding` table, keyed by symbol. -/
def Store : Type := String → Option Holding

/-- A `Holding` table with no rows. -/
def emptyStore : Store := fun _ => none

/-- `update_holdings` (src/backend/ingestion.py lines 54-108): recompute the
aggregates from the full transaction list, then for every symbol that
appears in the list and has positive remaining quantity, upsert a row with
`avg_price = total_buy_value / total_buy_quantity` (0 when there were no
buys) and `total_invested = current_quantity * avg_price`.  A symbol whose
remaining quantity is not positive is *skipped*: its previous row, if any,
is left in the table untouched. -/
def update_holdings (txs : List Tx) (store : Store) : Store :=
  fun s =>
    match aggFor txs s with
    | none => store s
    | some a =>
      if a.current_quantity > 0 then
        let avg : ℚ := if a.total_buy_quantity > 0 then a.total_buy_value / a.total_buy_quantity else 0
        some ⟨s, a.current_quantity, avg, a.current_quantity * avg, a.last_transaction_date⟩
      else store s

/-- The holding record of the app service layer (src/app/models.py
`Holding`): here `avg_cost` is a per-unit cost and `price` of a transaction
is a per-unit price.  Snapshot/key columns are elided. -/
structure AHolding where
  quantity : ℚ
  avg_cost : ℚ
  market_value : ℚ
deriving Repr, DecidableEq

/-- The holding update of `add_transaction_direct`
(src/app/services/portfolio_service.py lines 104-148): with no existing
holding only a BUY creates one; on an existing holding a BUY re-averages
the cost, a SELL clamps the quantity at zero and leaves `avg_cost`
unchanged (a holding reduced to zero quantity is kept, per the source
comment), and any other type leaves the holding as is. -/
def add_transaction_direct (holding : Option AHolding) (ty : String) (qty price : ℚ) :
    Option AHolding :=
  match holding with
  | none =>
    if pyUpper ty = "BUY" then some ⟨qty, price, qty * price⟩ else none
  | some h =>
    if pyUpper ty = "BUY" then
      let newTotalQty := h.quantity + qty
      let newAvgCost := if newTotalQty > 0 then (h.quantity * h.avg_cost + qty * price) / newTotalQty else 0
      some ⟨newTotalQty, newAvgCost, newTotalQty * price⟩
    else if pyUpper ty = "SELL" then
      let newQty := max 0 (h.quantity - qty)
      some ⟨newQty, h.avg_cost, newQty * price⟩
    else some h

/-- One step of the weighted-average fold exactly as the spec's section 4.2
words it (state is `(running_quantity, running_cost)`): BUY adds the
quantity and the total value; SELL multiplies the cost pool by
`1 - min(qty, running_quantity) / running_quantity` when the running
quantity is positive (no-op on the pool otherwise) and clamps the quantity
at zero.  This definition follows the spec, not the source; it exists to be
compared against `update_holdings`. -/
def specStep (st : ℚ × ℚ) (t : Tx) : ℚ × ℚ :=
  if isBuy t then (st.1 + t.quantity, st.2 + t.price)
  else
    let rr : ℚ := if st.1 > 0 then min t.quantity st.1 / st.1 else 0
    (max 0 (st.1 - t.quantity), st.2 * (1 - rr))

/-- The Position the spec's section 4.2 fold derives for a symbol:
`(quantity, average_cost, total_invested)`, absent when the final running
quantity is not positive.  Follows the spec's words, for comparison with
the source. -/
def specPosition (txs : List Tx) (s : String) : Option (ℚ × ℚ × ℚ) :=
  let st := (txs.filter (fun t => t.symbol = s)).foldl specStep (0, 0)
  if st.1 > 0 then some (st.1, st.2 / st.1, st.2) else none

/-- The historical price table the Historian works from, standing for the
forward-fillable `Close` frame of `yf.download` in `get_valuation_history`
(src/backend/utils.py lines 103-111): `cols` are the columns present after
renaming to original symbols, `close` gives the raw daily close of a symbol
(`none` = no observation that day). -/
structure HistData where
  cols : List String
  close : String → ℕ → Option ℚ

/-- The last raw close of `s` on or before day `d`, if any: the combined
effect of `resample('D').ffill()` and the `valid_prices.iloc[-1]` fallback
of src/backend/utils.py lines 146-151. -/
def lastValid (hist : HistData) (s : String) : ℕ → Option ℚ
  | 0 => hist.close s 0
  | d + 1 =>
    match hist.close s (d + 1) with
    | some p => some p
    | none => lastValid hist s d

/-- The per-day price `get_valuation_history` uses for a symbol
(src/backend/utils.py lines 143-151): the forward-filled close on or before
day `d` when the symbol has a price column, with 0 when the symbol has no
column or no observation on or before `d`. -/
def ffPrice (hist : HistData) (s : String) (d : ℕ) : ℚ :=
  if s ∈ hist.cols then (lastValid hist s d).getD 0 else 0

/-- One step of the Historian's per-symbol replay (src/backend/utils.py
lines 130-139), state `(qty, sym_invested)`: BUY adds the quantity and the
total value; any other type is a sale that first scales the cost pool by
`1 - tx.quantity / qty` when `qty > 0` (the sold fraction is NOT clamped
by `min`), then subtracts the quantity WITHOUT clamping at zero. -/
def histStep (st : ℚ × ℚ) (t : Tx) : ℚ × ℚ :=
  if isBuy t then (st.1 + t.quantity, st.2 + t.price)
  else
    let inv := if st.1 > 0 then st.2 * (1 - t.quantity / st.1) else st.2
    (st.1 - t.quantity, inv)

/-- Python's `round(x, 2)` on the exact rational value (the source rounds
the accumulated float; the half-to-even tie rule of binary floats is not
modelled, ties round half away from zero here — they do not arise in any
concrete input used below). -/
def roundTo2 (q : ℚ) : ℚ := (round (q * 100) : ℤ) / 100

/-- One record of the valuation history response. -/
structure DayVal where
  date : ℕ
  invested_value : ℚ
  market_value : ℚ
deriving Repr, DecidableEq

/-- The per-symbol contribution to a day's totals (src/backend/utils.py
lines 123-153): replay the symbol's past transactions with `histStep`;
an empty past contributes nothing (`continue`); the cost pool enters
invested unconditionally, while market value is added only when the
replayed quantity is positive, at the forward-filled price. -/
def symContrib (past : List Tx) (hist : HistData) (d : ℕ) (s : String) : ℚ × ℚ :=
  let symTx := past.filter (fun t => t.symbol = s)
  if symTx.isEmpty then (0, 0)
  else
    let st := symTx.foldl histStep (0, 0)
    (st.2, if st.1 > 0 then st.1 * ffPrice hist s d else 0)

/-- One day of `get_valuation_history`'s loop (src/backend/utils.py lines
116-159): filter the ledger to transactions on or before day `d`, sum the
per-symbol invested and market contributions, and round both to 2 places. -/
def dayVal (txs : List Tx) (symbols : List String) (hist : HistData) (d : ℕ) : DayVal :=
  let past := txs.filter (fun t => t.time ≤ d)
  let contribs := symbols.map (symContrib past hist d)
  ⟨d, roundTo2 ((contribs.map Prod.fst).sum), roundTo2 ((contribs.map Prod.snd).sum)⟩

/-- First-occurrence deduplication, as `pandas.Series.unique` used for
`df_tx['symbol'].unique()` (src/backend/utils.py line 94). -/
def pyUniqueAux (seen : List String) : List String → List String
  | [] => []
  | s :: ts => if s ∈ seen then pyUniqueAux seen ts else s :: pyUniqueAux (s :: seen) ts

/-- `df_tx['symbol'].unique().tolist()`. -/
def pyUnique (l : List String) : List String := pyUniqueAux [] l

/-- `df_tx['execution_time'].min()` (src/backend/utils.py line 98),
0 for an empty frame (unused: the empty case returns earlier). -/
def startOf : List Tx → ℕ
  | [] => 0
  | t :: ts => ts.foldl (fun m x => min m x.time) t.time

/-- `pd.date_range(start=start_date, end=end_date, freq='D')`: the days
from `startDay` to `today`, both inclusive (empty when `startDay` is after
`today`). -/
def timeline (startDay today : ℕ) : List ℕ :=
  (List.range (today + 1 - startDay)).map (· + startDay)

/-- `get_valuation_history` (src/backend/utils.py lines 84-164).  The price
oracle is passed explicitly: `none` stands for the `yf.download` call
raising, or for the downloaded frame lacking a usable `Close` table — both
land in the blanket `except`, which returns the empty list.  An empty
transaction list returns the empty list before the oracle is consulted. -/
def get_valuation_history (txs : List Tx) (oracle : Option HistData) (today : ℕ) :
    List DayVal :=
  if txs.isEmpty then []
  else
    match oracle with
    | none => []
    | some hist =>
      let symbols := pyUnique (txs.map (fun t => t.symbol))
      (timeline (startOf txs) today).map (dayVal txs symbols hist)

/-- The `/valuation-history` endpoint (src/backend/main.py lines 66-75):
returns `[]` when the ledger holds no transactions, otherwise defers to
`get_valuation_history`. -/
def valuation_history (ledger : List Tx) (oracle : Option HistData) (today : ℕ) :
    List DayVal :=
  if ledger.isEmpty then [] else get_valuation_history ledger oracle today

/-- `symbol if "." in symbol else symbol + ".NS"`: the yfinance suffix
normalization of src/backend/utils.py lines 21-27. -/
def pyMapped (s : String) : String := if s.contains '.' then s else s ++ ".NS"

/-- Insert into a Python dict modelled as an association list: an existing
key keeps its position and takes the new value, a new key is appended. -/
def dictInsert {α : Type} (m : List (String × α)) (k : String) (v : α) :
    List (String × α) :=
  if m.any (fun kv => kv.1 = k) then m.map (fun kv => if kv.1 = k then (k, v) else kv)
  else m ++ [(k, v)]

/-- Build a Python dict from a list of key-value pairs (later pairs
overwrite earlier ones). -/
def listToDict {α : Type} (l : List (String × α)) : List (String × α) :=
  l.foldl (fun m kv => dictInsert m kv.1 kv.2) []

/-- `dict.get(k)`: the value at `k`, if present. -/
def dictGet {α : Type} (m : List (String × α)) (k : String) : Option α :=
  (m.find? (fun kv => kv.1 = k)).map Prod.snd

/-- The result of the `yf.download(period="1d", interval="1m")` call made
by `get_real_time_prices`: whether the frame is empty, whether it has a
`Close` table, which per-ticker columns that table has, and the last value
of each column (`none` = NaN). -/
structure DownloadData where
  isEmpty : Bool
  hasClose : Bool
  closeCols : List String
  closeLast : String → Option ℚ

/-- `get_real_time_prices` (src/backend/utils.py lines 9-57).  The download
is passed explicitly; `none` stands for the call raising, which the source
answers with `{symbol: None for symbol in symbols}`.  An empty symbol list
returns the empty dict before the oracle is consulted.  On a successful
download the single-symbol branch reads the last `Close` value when the
frame is nonempty and has a `Close` column, and the multi-symbol branch
assigns each original symbol the last value of its mapped column when
present, `None` otherwise. -/
def get_real_time_prices (symbols : List String) (download : Option DownloadData) :
    List (String × Option ℚ) :=
  if symbols.isEmpty then []
  else
    let processed := symbols.map pyMapped
    let symbolMap := listToDict (symbols.map (fun s => (pyMapped s, s)))
    match download with
    | none => listToDict (symbols.map (fun s => (s, (none : Option ℚ))))
    | some data =>
      if processed.length = 1 then
        let mapped := processed.headI
        let original := ((symbolMap.find? (fun kv => kv.1 = mapped)).map Prod.snd).getD mapped
        if !data.isEmpty && data.hasClose then [(original, data.closeLast mapped)]
        else [(original, none)]
      else
        listToDict (symbolMap.map (fun kv =>
          (kv.2, if data.hasClose && decide (kv.1 ∈ data.closeCols) then data.closeLast kv.1 else none)))

/-- A backend `Holding` row as the `/holdings` endpoint handles it: the
persistent columns of the model plus the live-overlay attributes
(`current_price`, `current_valuation`, `last_updated_at`) that
src/backend/main.py sets dynamically (they are absent until a live price
is first attached). -/
structure BHolding where
  symbol : String
  quantity : ℚ
  avg_price : ℚ
  total_invested : ℚ
  current_price : Option ℚ
  current_valuation : Option ℚ
  last_updated_at : Option ℕ
deriving Repr, DecidableEq

/-- The `/holdings` endpoint `get_holdings` (src/backend/main.py lines
77-102): every stored holding is returned; a holding whose symbol has a
live price gets `current_price`, `current_valuation = price * quantity`
and `last_updated_at := now`; a holding without one is returned unchanged.
`live` is the lookup `live_prices.get(symbol)` over the dict built by
`get_real_time_prices` (a key mapped to `None` and a missing key both
yield `none`). -/
def get_holdings (holdings : List BHolding) (live : String → Option ℚ) (now : ℕ) :
    List BHolding :=
  holdings.map (fun h =>
    match live h.symbol with
    | some p =>
      { h with current_price := some p, current_valuation := some (p * h.quantity),
               last_updated_at := some now }
    | none => h)

/-- The signed quantity effect of one transaction under the Reconciler's
typing: `+quantity` for a BUY, `-quantity` for a SELL, 0 otherwise. -/
def txDelta (t : Tx) : ℚ :=
  if isBuy t then t.quantity else if isSell t then -t.quantity else 0

/-- Net unclamped quantity of a transaction list. -/
def netQty : List Tx → ℚ
  | [] => 0
  | t :: ts => txDelta t + netQty ts

/-- Running quantity of the Reconciler: BUY adds, SELL subtracts and clamps
a negative result to zero, other types are ignored. -/
def clampedQtyAux (q : ℚ) : List Tx → ℚ
  | [] => q
  | t :: ts =>
    if isBuy t then clampedQtyAux (q + t.quantity) ts
    else if isSell t then clampedQtyAux (max 0 (q - t.quantity)) ts
    else clampedQtyAux q ts

/-- Total quantity bought over a list. -/
def buyQty : List Tx → ℚ
  | [] => 0
  | t :: ts => (if isBuy t then t.quantity else 0) + buyQty ts

/-- Total value bought over a list. -/
def buyVal : List Tx → ℚ
  | [] => 0
  | t :: ts => (if isBuy t then t.price else 0) + buyVal ts

/-- Latest execution time of a list (0 when empty). -/
def lastDate : List Tx → ℕ
  | [] => 0
  | t :: ts => max t.time (lastDate ts)

/-- The Position the Reconciler actually derives for a symbol, stated in
closed form: quantity is the per-step-clamped net quantity; average cost is
the total value of ALL buys divided by the total quantity of ALL buys
(whole-history average, not a proportionally reduced cost pool);
total_invested is quantity times that average; the row exists only when
the quantity is positive. -/
def amendedPosition (txs : List Tx) (s : String) : Option Holding :=
  let f := txs.filter (fun t => t.symbol = s)
  let q := clampedQtyAux 0 f
  if q > 0 then
    let avg : ℚ := if buyQty f > 0 then buyVal f / buyQty f else 0
    some ⟨s, q, avg, q * avg, lastDate f⟩
  else none

/-- Boolean check that replaying `l` from running quantity `q` never drives
the unclamped running quantity negative (so the Reconciler's clamp never
fires). -/
def noOversellB (q : ℚ) : List Tx → Bool
  | [] => true
  | t :: ts => decide (0 ≤ q + txDelta t) && noOversellB (q + txDelta t) ts

/-- No prefix of `l` has negative unclamped net quantity. -/
def noOversell (l : List Tx) : Prop := noOversellB 0 l = true

theorem ite_neg_eq_max (x : ℚ) : (if x < 0 then 0 else x) = max 0 x := by
  rcases lt_or_le x 0 with h | h
  · simp [h, max_eq_left h.le]
  · simp [not_lt.2 h, max_eq_right h]

theorem ite_lt_eq_max (a b : ℚ) : (if a < b then 0 else a - b) = max 0 (a - b) := by
  rw [← ite_neg_eq_max]
  simp [sub_neg]

theorem foldl_aggStep (l : List Tx) : ∀ a : Agg,
    l.foldl aggStep a =
      ⟨clampedQtyAux a.current_quantity l, a.total_buy_quantity + buyQty l,
        a.total_buy_value + buyVal l, max a.last_transaction_date (lastDate l)⟩ := by
  induction l with
  | nil => intro a; simp [clampedQtyAux, buyQty, buyVal, lastDate]
  | cons t ts ih =>
    intro a
    rw [List.foldl_cons, ih]
    by_cases hb : isBuy t
    · simp [aggStep, hb, clampedQtyAux, buyQty, buyVal, lastDate, Agg.mk.injEq,
        add_assoc, max_assoc]
    · by_cases hs : isSell t
      · simp [aggStep, hb, hs, clampedQtyAux, buyQty, buyVal, lastDate, Agg.mk.injEq,
          ite_neg_eq_max, ite_lt_eq_max, max_assoc]
      · simp [aggStep, hb, hs, clampedQtyAux, buyQty, buyVal, lastDate, Agg.mk.injEq,
          max_assoc]

theorem max_absorb (a b : ℕ) : max a (max a b) = max a b := by
  rw [← max_assoc, max_self]

theorem update_holdings_char (txs : List Tx) (s : String) :
    update_holdings txs emptyStore s = amendedPosition txs s := by
  unfold update_holdings amendedPosition aggFor
  cases hf : txs.filter (fun t => t.symbol = s) with
  | nil => simp [emptyStore, clampedQtyAux]
  | cons t ts =>
    have hlast : max t.time (lastDate (t :: ts)) = lastDate (t :: ts) := by
      show max t.time (max t.time (lastDate ts)) = max t.time (lastDate ts)
      exact max_absorb _ _
    simp only [foldl_aggStep, zero_add, emptyStore, hlast]

theorem netQty_eq_sum (l : List Tx) : netQty l = (l.map txDelta).sum := by
  induction l with
  | nil => rfl
  | cons t ts ih => simp [netQty, ih]

theorem buyQty_eq_sum (l : List Tx) :
    buyQty l = (l.map (fun t => if isBuy t then t.quantity else 0)).sum := by
  induction l with
  | nil => rfl
  | cons t ts ih => simp [buyQty, ih]

theorem buyVal_eq_sum (l : List Tx) :
    buyVal l = (l.map (fun t => if isBuy t then t.price else 0)).sum := by
  induction l with
  | nil => rfl
  | cons t ts ih => simp [buyVal, ih]

theorem lastDate_eq_sup (l : List Tx) :
    lastDate l = ((l.map (fun t => t.time) : List ℕ) : Multiset ℕ).sup := by
  induction l with
  | nil => rfl
  | cons t ts ih =>
    rw [lastDate, List.map_cons, ← Multiset.cons_coe, Multiset.sup_cons, ih]

theorem clamped_eq_net (l : List Tx) : ∀ q : ℚ, noOversellB q l = true →
    clampedQtyAux q l = q + netQty l := by
  induction l with
  | nil => intro q _; simp [clampedQtyAux, netQty]
  | cons t ts ih =>
    intro q h
    rw [noOversellB, Bool.and_eq_true, decide_eq_true_eq] at h
    obtain ⟨h0, hrest⟩ := h
    by_cases hb : isBuy t
    · have hd : txDelta t = t.quantity := by simp [txDelta, hb]
      rw [hd] at hrest
      rw [clampedQtyAux, if_pos hb, ih _ hrest, netQty, hd]
      ring
    · by_cases hs : isSell t
      · have hd : txDelta t = -t.quantity := by simp [txDelta, hb, hs]
        rw [hd, ← sub_eq_add_neg] at hrest h0
        have hmax : max 0 (q - t.quantity) = q - t.quantity := max_eq_right h0
        rw [clampedQtyAux, if_neg (by simp [hb]), if_pos hs, hmax, ih _ hrest, netQty, hd]
        ring
      · have hd : txDelta t = 0 := by simp [txDelta, hb, hs]
        rw [hd, add_zero] at hrest
        rw [clampedQtyAux, if_neg (by simp [hb]), if_neg (by simp [hs]), ih _ hrest, netQty, hd]
        ring

theorem amendedPosition_perm (l1 l2 : List Tx) (s : String)
    (hp : List.Perm l1 l2)
    (h1 : noOversell (l1.filter (fun t => t.symbol = s)))
    (h2 : noOversell (l2.filter (fun t => t.symbol = s))) :
    amendedPosition l1 s = amendedPosition l2 s := by
  have hpf : List.Perm (l1.filter (fun t => t.symbol = s)) (l2.filter (fun t => t.symbol = s)) :=
    hp.filter _
  have hq : clampedQtyAux 0 (l1.filter (fun t => t.symbol = s))
      = clampedQtyAux 0 (l2.filter (fun t => t.symbol = s)) := by
    rw [clamped_eq_net _ 0 h1, clamped_eq_net _ 0 h2, netQty_eq_sum, netQty_eq_sum,
      (hpf.map txDelta).sum_eq]
  have hbq : buyQty (l1.filter (fun t => t.symbol = s))
      = buyQty (l2.filter (fun t => t.symbol = s)) := by
    rw [buyQty_eq_sum, buyQty_eq_sum, (hpf.map _).sum_eq]
  have hbv : buyVal (l1.filter (fun t => t.symbol = s))
      = buyVal (l2.filter (fun t => t.symbol = s)) := by
    rw [buyVal_eq_sum, buyVal_eq_sum, (hpf.map _).sum_eq]
  have hld : lastDate (l1.filter (fun t => t.symbol = s))
      = lastDate (l2.filter (fun t => t.symbol = s)) := by
    rw [lastDate_eq_sup, lastDate_eq_sup]
    congr 1
    exact Multiset.coe_eq_coe.mpr (hpf.map _)
  simp only [amendedPosition]
  rw [hq, hbq, hbv, hld]

theorem clampedQtyAux_nonneg (l : List Tx) : ∀ q : ℚ, 0 ≤ q →
    (∀ t ∈ l, 0 ≤ t.quantity) → 0 ≤ clampedQtyAux q l := by
  induction l with
  | nil => intro q hq _; simpa [clampedQtyAux] using hq
  | cons t ts ih =>
    intro q hq hl
    have hqt : 0 ≤ t.quantity := hl t (List.mem_cons_self t ts)
    have hts : ∀ x ∈ ts, 0 ≤ x.quantity := fun x hx => hl x (List.mem_cons_of_mem t hx)
    rw [clampedQtyAux]
    by_cases hb : isBuy t
    · rw [if_pos hb]; exact ih _ (by linarith) hts
    · by_cases hs : isSell t
      · rw [if_neg (by simp [hb]), if_pos hs]; exact ih _ (le_max_left 0 _) hts
      · rw [if_neg (by simp [hb]), if_neg (by simp [hs])]; exact ih _ hq hts

theorem buyQty_nonneg (l : List Tx) (h : ∀ t ∈ l, 0 ≤ t.quantity) : 0 ≤ buyQty l := by
  induction l with
  | nil => simp [buyQty]
  | cons t ts ih =>
    rw [buyQty]
    have := h t (List.mem_cons_self t ts)
    have hih := ih fun x hx => h x (List.mem_cons_of_mem t hx)
    by_cases hb : isBuy t
    · rw [if_pos hb]; linarith
    · rw [if_neg hb]; linarith

theorem buyVal_nonneg (l : List Tx) (h : ∀ t ∈ l, 0 ≤ t.price) : 0 ≤ buyVal l := by
  induction l with
  | nil => simp [buyVal]
  | cons t ts ih =>
    rw [buyVal]
    have := h t (List.mem_cons_self t ts)
    have hih := ih fun x hx => h x (List.mem_cons_of_mem t hx)
    by_cases hb : isBuy t
    · rw [if_pos hb]; linarith
    · rw [if_neg hb]; linarith

theorem timeline_getLast (startDay today : ℕ) (h : startDay ≤ today) :
    (timeline startDay today).getLast? = some today := by
  unfold timeline
  have hn : today + 1 - startDay = (today - startDay) + 1 := by omega
  rw [hn, List.range_succ, List.map_append, List.map_cons, List.map_nil,
    List.getLast?_concat]
  congr 1
  omega

theorem startOf_le (txs : List Tx) (today : ℕ) (hne : txs ≠ [])
    (h : ∀ t ∈ txs, t.time ≤ today) : startOf txs ≤ today := by
  match txs with
  | t :: ts =>
    have hfold : ∀ (l : List Tx) (init : ℕ),
        l.foldl (fun m x => min m x.time) init ≤ init := by
      intro l
      induction l with
      | nil => intro init; simp
      | cons x xs ih =>
        intro init
        calc (x :: xs).foldl (fun m x => min m x.time) init
            = xs.foldl (fun m x => min m x.time) (min init x.time) := rfl
          _ ≤ min init x.time := ih _
          _ ≤ init := min_le_left _ _
    calc startOf (t :: ts) ≤ t.time := hfold ts t.time
      _ ≤ today := h t (List.mem_cons_self t ts)

theorem symContrib_fst (past : List Tx) (hist : HistData) (d : ℕ) (s : String) :
    (symContrib past hist d s).1
      = ((past.filter (fun t => t.symbol = s)).foldl histStep (0, 0)).2 := by
  unfold symContrib
  cases hf : (past.filter (fun t => t.symbol = s)) with
  | nil => simp
  | cons t ts => simp

theorem get_valuation_history_last (txs : List Tx) (hist : HistData) (today : ℕ)
    (hne : txs ≠ []) (h : ∀ t ∈ txs, t.time ≤ today) :
    (get_valuation_history txs (some hist) today).getLast?.map (fun v => v.invested_value)
      = some (roundTo2 (((pyUnique (txs.map (fun t => t.symbol))).map
          (fun s => ((txs.filter (fun t => t.symbol = s)).foldl histStep (0, 0)).2)).sum)) := by
  unfold get_valuation_history
  rw [if_neg (by simpa using hne)]
  rw [List.getLast?_map, timeline_getLast _ _ (startOf_le txs today hne h)]
  have hpast : txs.filter (fun t => t.time ≤ today) = txs :=
    List.filter_eq_self.mpr (fun t ht => by simpa using h t ht)
  simp only [Option.map_some', dayVal, hpast]
  congr 3
  rw [List.map_map]
  exact List.map_congr_left fun s _ => symContrib_fst txs hist today s

theorem dictInsert_values {α : Type} (P : α → Prop) (m : List (String × α)) (k : String)
    (v : α) (hm : ∀ kv ∈ m, P kv.2) (hv : P v) : ∀ kv ∈ dictInsert m k v, P kv.2 := by
  intro kv hkv
  unfold dictInsert at hkv
  by_cases hc : m.any (fun kv => kv.1 = k)
  · rw [if_pos hc] at hkv
    obtain ⟨kv', hkv', heq⟩ := List.mem_map.mp hkv
    by_cases h' : kv'.1 = k
    · rw [if_pos h'] at heq; rw [← heq]; exact hv
    · rw [if_neg h'] at heq; rw [← heq]; exact hm kv' hkv'
  · rw [if_neg hc] at hkv
    rcases List.mem_append.mp hkv with h | h
    · exact hm kv h
    · rw [List.mem_singleton.mp h]; exact hv

theorem dictInsert_keys {α : Type} (m : List (String × α)) (k : String) (v : α)
    (k' : String) (h : k' ∈ m.map Prod.fst ∨ k' = k) :
    k' ∈ (dictInsert m k v).map Prod.fst := by
  unfold dictInsert
  by_cases hc : m.any (fun kv => kv.1 = k)
  · rw [if_pos hc]
    rcases h with h | h
    · obtain ⟨kv, hkv, heq⟩ := List.mem_map.mp h
      apply List.mem_map.mpr
      refine ⟨if kv.1 = k then (k, v) else kv, List.mem_map_of_mem _ hkv, ?_⟩
      by_cases h' : kv.1 = k
      · rw [if_pos h']; rw [← heq, h']
      · rw [if_neg h']; exact heq
    · obtain ⟨kv, hkv, hk⟩ := List.any_eq_true.mp hc
      apply List.mem_map.mpr
      refine ⟨if kv.1 = k then (k, v) else kv, List.mem_map_of_mem _ hkv, ?_⟩
      rw [if_pos (by simpa using hk)]
      exact h.symm
  · rw [if_neg hc, List.map_append]
    rcases h with h | h
    · exact List.mem_append.mpr (Or.inl h)
    · exact List.mem_append.mpr (Or.inr (by simp [h]))

theorem listToDict_values {α : Type} (P : α → Prop) :
    ∀ (l m : List (String × α)), (∀ kv ∈ m, P kv.2) → (∀ kv ∈ l, P kv.2) →
      ∀ kv ∈ l.foldl (fun m kv => dictInsert m kv.1 kv.2) m, P kv.2 := by
  intro l
  induction l with
  | nil => intro m hm _; exact hm
  | cons p ps ih =>
    intro m hm hl
    rw [List.foldl_cons]
    exact ih _ (dictInsert_values P m p.1 p.2 hm (hl p (List.mem_cons_self p ps)))
      (fun kv hkv => hl kv (List.mem_cons_of_mem p hkv))

theorem listToDict_keys {α : Type} :
    ∀ (l m : List (String × α)) (k : String),
      (k ∈ m.map Prod.fst ∨ k ∈ l.map Prod.fst) →
      k ∈ (l.foldl (fun m kv => dictInsert m kv.1 kv.2) m).map Prod.fst := by
  intro l
  induction l with
  | nil =>
    intro m k h
    rcases h with h | h
    · exact h
    · simp at h
  | cons p ps ih =>
    intro m k h
    rw [List.foldl_cons]
    apply ih
    rcases h with h | h
    · exact Or.inl (dictInsert_keys m p.1 p.2 k (Or.inl h))
    · rw [List.map_cons] at h
      rcases List.mem_cons.mp h with h | h
      · exact Or.inl (dictInsert_keys m p.1 p.2 k (Or.inr h))
      · exact Or.inr h

theorem dictGet_all_none (symbols : List String) (s : String) (hs : s ∈ symbols) :
    dictGet (listToDict (symbols.map (fun x => (x, (none : Option ℚ))))) s = some none := by
  have hkey : s ∈ (listToDict (symbols.map (fun x => (x, (none : Option ℚ))))).map Prod.fst := by
    apply listToDict_keys
    refine Or.inr ?_
    rw [List.map_map]
    simpa using hs
  have hval : ∀ kv ∈ listToDict (symbols.map (fun x => (x, (none : Option ℚ)))),
      kv.2 = none := by
    apply listToDict_values (fun v => v = none)
    · intro kv hkv; simp at hkv
    · intro kv hkv
      obtain ⟨x, _, hx⟩ := List.mem_map.mp hkv
      rw [← hx]
  obtain ⟨kv, hkvmem, hkv1⟩ := List.mem_map.mp hkey
  unfold dictGet
  have hfind : ∃ kv', (listToDict (symbols.map (fun x => (x, (none : Option ℚ))))).find?
      (fun kv => kv.1 = s) = some kv' := by
    rw [← Option.isSome_iff_exists]
    rw [List.find?_isSome]
    exact ⟨kv, hkvmem, by simpa using hkv1⟩
  obtain ⟨kv', hkv'⟩ := hfind
  rw [hkv']
  have := hval kv' (List.mem_of_find?_eq_some hkv')
  rw [Option.map_some', this]

/-- A buy-sell-rebuy history on which the code's whole-buy-average
reconciliation and the spec's proportional cost-pool fold disagree. -/
def exC1re : List Tx :=
  [⟨"X", "BUY", 10, 1000, 1⟩, ⟨"X", "SELL", 10, 480, 2⟩, ⟨"X", "BUY", 10, 2000, 3⟩]

/-- The BUY-10-for-1000 then SELL-4 example history of the spec. -/
def exC1 : List Tx := [⟨"X", "BUY", 10, 1000, 1⟩, ⟨"X", "SELL", 4, 480, 2⟩]

/-- C1. The claim says the reconciled Position is produced by the section
4.2 weighted-average fold (SELL scales the cost pool by the sold fraction).
Counterexample: on BUY 10 for 1000, SELL 10, BUY 10 for 2000 the code's
`update_holdings` leaves total_invested = 10 * (3000/20) = 1500, while the
spec fold's cost pool is 2000 — the reconciled Position is NOT the section
4.2 fold. -/
theorem c1_counterexample :
    (update_holdings exC1re emptyStore "X").map (fun h => h.total_invested) = some 1500 ∧
    (specPosition exC1re "X").map (fun p => p.2.2) = some 2000 ∧
    (1500 : ℚ) ≠ 2000 := by
  refine ⟨?_, ?_, by norm_num⟩
  · simp [exC1re, update_holdings, aggFor, aggStep, isBuy, isSell, emptyStore]
    norm_num
  · simp [exC1re, specPosition, specStep, isBuy, isSell]

/-- C1 (amended). The reconciled Position is produced by the whole-history
fold of `update_holdings`: quantity is the per-step-clamped net quantity
(BUY adds, SELL subtracts clamping at zero), average_cost is the total
value of all BUYs divided by the total quantity of all BUYs, and
total_invested is quantity times that average; the Position exists exactly
when the final quantity is positive.  On the spec's own example — BUY 10
for total 1000 then SELL 4 — this still yields quantity 6, average_cost
100, total_invested 600, as the claim states. -/
theorem c1_reconciler_characterization :
    (∀ (txs : List Tx) (s : String),
      update_holdings txs emptyStore s = amendedPosition txs s) ∧
    update_holdings exC1 emptyStore "X" = some ⟨"X", 6, 100, 600, 2⟩ := by
  refine ⟨update_holdings_char, ?_⟩
  simp [exC1, update_holdings, aggFor, aggStep, isBuy, isSell, emptyStore, Holding.mk.injEq]
  norm_num

/-- An existing Position row for symbol X. -/
def h0 : Holding := ⟨"X", 5, 100, 500, 1⟩

/-- A Positions table holding only `h0`. -/
def store0 : Store := fun s => if s = "X" then some h0 else none

/-- A ledger whose replayed net quantity for X is exactly zero. -/
def exC2 : List Tx := [⟨"X", "BUY", 5, 500, 1⟩, ⟨"X", "SELL", 5, 600, 2⟩]

/-- C2. The claim says that after every ledger mutation no zero-quantity
Position row exists.  Counterexample: replaying `exC2` leaves net quantity
0 for X, yet `update_holdings` leaves the pre-existing row `h0` in the
table untouched (it only skips symbols with non-positive quantity, it never
deletes them); and `add_transaction_direct` explicitly keeps a holding that
a SELL reduces to quantity 0. -/
theorem c2_counterexample :
    (aggFor exC2 "X").map (fun a => a.current_quantity) = some 0 ∧
    update_holdings exC2 store0 "X" = some h0 ∧
    add_transaction_direct (some ⟨5, 100, 500⟩) "SELL" 5 100 = some ⟨0, 100, 0⟩ := by
  refine ⟨?_, ?_, ?_⟩
  · simp [exC2, aggFor, aggStep, isBuy, isSell]
  · simp [exC2, update_holdings, aggFor, aggStep, isBuy, isSell, store0]
  · simp [add_transaction_direct, AHolding.mk.injEq]

/-- C2 (amended). Ledger mutations never delete a Position row: when the
replayed net quantity of a symbol is zero, `update_holdings` leaves the
Positions table unchanged at that symbol — a pre-existing row (including a
stale zero-net one) persists, and no new row is created; and in the app
service layer a SELL always keeps the holding, with quantity clamped at
zero and `avg_cost` unchanged, even when the remaining quantity is 0. -/
theorem c2_zero_quantity_rows_persist :
    (∀ (txs : List Tx) (store : Store) (s : String) (a : Agg),
      aggFor txs s = some a → a.current_quantity = 0 →
      update_holdings txs store s = store s) ∧
    (∀ (h : AHolding) (q p : ℚ),
      add_transaction_direct (some h) "SELL" q p
        = some ⟨max 0 (h.quantity - q), h.avg_cost, max 0 (h.quantity - q) * p⟩) := by
  constructor
  · intro txs store s a ha hq
    unfold update_holdings
    rw [ha]
    simp [hq]
  · intro h q p
    simp [add_transaction_direct]

/-- Witness for C2 (amended) at the concrete zero-net ledger `exC2` and
table `store0`. -/
theorem c2_witness :
    aggFor exC2 "X" = some ⟨0, 5, 500, 2⟩ ∧ update_holdings exC2 store0 "X" = store0 "X" := by
  have ha : aggFor exC2 "X" = some ⟨0, 5, 500, 2⟩ := by
    simp [exC2, aggFor, aggStep, isBuy, isSell, Agg.mk.injEq]
  exact ⟨ha, c2_zero_quantity_rows_persist.1 exC2 store0 "X" ⟨0, 5, 500, 2⟩ ha rfl⟩

/-- A price table with no symbols and no observations (the market-value
column is then 0 everywhere; invested_value does not depend on prices). -/
def trivialHist : HistData := ⟨[], fun _ _ => none⟩

/-- C3. The claim says the Historian replays with BUY/SELL semantics
identical to the Reconciler's fold, so that the final day's invested_value
equals the sum of Position.total_invested.  Counterexample: on the
buy-sell-rebuy ledger `exC1re` the Historian's final-day invested_value is
2000 (proportional cost-pool reduction), while the Positions table built
by `update_holdings` carries total_invested 1500 (whole-buy-average) — the
two algorithms differ and the claimed equality fails. -/
theorem c3_counterexample :
    (get_valuation_history exC1re (some trivialHist) 3).getLast?.map
        (fun v => v.invested_value) = some 2000 ∧
    (update_holdings exC1re emptyStore "X").map (fun h => h.total_invested) = some 1500 ∧
    (2000 : ℚ) ≠ 1500 := by
  refine ⟨?_, ?_, by norm_num⟩
  · rw [get_valuation_history_last exC1re trivialHist 3 (by decide) (by decide)]
    simp [exC1re, pyUnique, pyUniqueAux, histStep, isBuy, roundTo2, round_eq]
    norm_num
  · simp [exC1re, update_holdings, aggFor, aggStep, isBuy, isSell, emptyStore]
    norm_num

/-- C3 (amended). For a nonempty ledger all of whose transactions fall on
or before `today`, the Historian's final-day invested_value equals the sum
over the ledger's symbols of the cost pool obtained by the Historian's OWN
proportional-reduction replay (`histStep`) of that symbol's transactions,
rounded to two places.  This is a different fold from the Reconciler's
whole-buy-average, so it does not in general equal the sum of
Position.total_invested (see the counterexample). -/
theorem c3_final_day_invested (txs : List Tx) (hist : HistData) (today : ℕ)
    (hne : txs ≠ []) (h : ∀ t ∈ txs, t.time ≤ today) :
    (get_valuation_history txs (some hist) today).getLast?.map (fun v => v.invested_value)
      = some (roundTo2 (((pyUnique (txs.map (fun t => t.symbol))).map
          (fun s => ((txs.filter (fun t => t.symbol = s)).foldl histStep (0, 0)).2)).sum)) :=
  get_valuation_history_last txs hist today hne h

/-- Witness for C3 (amended) at the ledger `exC1`: the final-day
invested_value is 1000 * (1 - 4/10) = 600. -/
theorem c3_witness :
    exC1 ≠ [] ∧ (∀ t ∈ exC1, t.time ≤ 3) ∧
    (get_valuation_history exC1 (some trivialHist) 3).getLast?.map
        (fun v => v.invested_value) = some 600 := by
  refine ⟨by decide, by decide, ?_⟩
  rw [c3_final_day_invested exC1 trivialHist 3 (by decide) (by decide)]
  simp [exC1, pyUnique, pyUniqueAux, histStep, isBuy, roundTo2, round_eq]
  norm_num

/-- A two-transaction ledger in storage (insertion) order: the BUY was
inserted first but bears the later timestamp. -/
def exC4a : List Tx := [⟨"X", "BUY", 5, 500, 2⟩, ⟨"X", "SELL", 5, 400, 1⟩]

/-- The same two transactions in ascending-timestamp order. -/
def exC4b : List Tx := [⟨"X", "SELL", 5, 400, 1⟩, ⟨"X", "BUY", 5, 500, 2⟩]

/-- C4. The claim says the reconciled Position equals the chronological
replay and never depends on any other ordering.  Counterexample:
`update_holdings` folds the transactions in storage order without sorting;
on storage order `exC4a` (BUY then SELL) the net quantity is 0 and no row
is written, while the same transaction set replayed in ascending timestamp
order `exC4b` (SELL clamped, then BUY) yields a Position with quantity 5 —
under both the code's own fold and the spec's section 4.2 fold — so the
stored Position depends on insertion order and differs from the
chronological replay. -/
theorem c4_counterexample :
    List.Perm exC4b exC4a ∧
    List.Pairwise (fun a b => a.time ≤ b.time) exC4b ∧
    update_holdings exC4a emptyStore "X" = none ∧
    update_holdings exC4b emptyStore "X" = some ⟨"X", 5, 100, 500, 2⟩ ∧
    specPosition exC4b "X" = some (5, 100, 500) := by
  refine ⟨by decide, by simp [exC4b, List.pairwise_cons], ?_, ?_, ?_⟩
  · simp [exC4a, update_holdings, aggFor, aggStep, isBuy, isSell, emptyStore]
  · simp [exC4b, update_holdings, aggFor, aggStep, isBuy, isSell, emptyStore,
      Holding.mk.injEq]
    norm_num
  · simp [exC4b, specPosition, specStep, isBuy, isSell, Prod.ext_iff]
    norm_num

/-- C4 (amended). The Reconciler folds in storage order, so the stored
Position can depend on that order when the oversell clamp fires (see the
counterexample).  When no prefix of either ordering drives the unclamped
running quantity negative, the clamp never fires and the derived Position
is the same for any two orderings of the same transaction set — in
particular it then equals the ascending-timestamp replay. -/
theorem c4_order_independence (l1 l2 : List Tx) (s : String)
    (hp : List.Perm l1 l2)
    (h1 : noOversell (l1.filter (fun t => t.symbol = s)))
    (h2 : noOversell (l2.filter (fun t => t.symbol = s))) :
    update_holdings l1 emptyStore s = update_holdings l2 emptyStore s := by
  rw [update_holdings_char, update_holdings_char]
  exact amendedPosition_perm l1 l2 s hp h1 h2

/-- Two buys of X in either order. -/
def exC4c : List Tx := [⟨"X", "BUY", 2, 200, 1⟩, ⟨"X", "BUY", 3, 600, 2⟩]

/-- The two buys of `exC4c`, swapped. -/
def exC4d : List Tx := [⟨"X", "BUY", 3, 600, 2⟩, ⟨"X", "BUY", 2, 200, 1⟩]

/-- Witness for C4 (amended): two buys in either insertion order give the
same Position. -/
theorem c4_witness :
    List.Perm exC4c exC4d ∧
    noOversell (exC4c.filter (fun t => t.symbol = "X")) ∧
    noOversell (exC4d.filter (fun t => t.symbol = "X")) ∧
    update_holdings exC4c emptyStore "X" = update_holdings exC4d emptyStore "X" := by
  refine ⟨?hp, ?h1, ?h2, ?_⟩
  case hp => decide
  case h1 =>
    show noOversellB 0 _ = true
    simp [exC4c, noOversellB, txDelta, isBuy, isSell]
    norm_num
  case h2 =>
    show noOversellB 0 _ = true
    simp [exC4d, noOversellB, txDelta, isBuy, isSell]
    norm_num
  exact c4_order_independence exC4c exC4d "X" (by decide)
    (by show noOversellB 0 _ = true
        simp [exC4c, noOversellB, txDelta, isBuy, isSell]; norm_num)
    (by show noOversellB 0 _ = true
        simp [exC4d, noOversellB, txDelta, isBuy, isSell]; norm_num)

/-- A BUY of 10 followed by an oversell of 15. -/
def exC5 : List Tx := [⟨"X", "BUY", 10, 1000, 1⟩, ⟨"X", "SELL", 15, 0, 2⟩]

/-- C5. The claim says replay never produces a negative quantity or a
negative cost basis, in the Reconciler and in every per-day state of the
Historian.  Counterexample: the Historian's replay does not clamp — on a
BUY of 10 for 1000 followed by a SELL of 15 its per-symbol state ends at
quantity -5 with cost pool 1000 * (1 - 15/10) = -500, and the emitted
final-day invested_value is -500. -/
theorem c5_counterexample :
    (get_valuation_history exC5 (some trivialHist) 2).getLast?.map
        (fun v => v.invested_value) = some (-500) ∧
    (exC5.foldl histStep (0, 0)).1 = -5 ∧
    (exC5.foldl histStep (0, 0)).2 = -500 ∧
    ((-500 : ℚ) < 0) ∧ ((-5 : ℚ) < 0) := by
  refine ⟨?_, ?_, ?_, by norm_num, by norm_num⟩
  · rw [get_valuation_history_last exC5 trivialHist 2 (by decide) (by decide)]
    simp [exC5, pyUnique, pyUniqueAux, histStep, isBuy, roundTo2, round_eq]
    norm_num
  · simp [exC5, histStep, isBuy]
    norm_num
  · simp [exC5, histStep, isBuy]
    norm_num

/-- C5 (amended). The Reconciler is safe: with validated input (nonnegative
quantities and values) the running quantity is clamped at zero at every
step, the cumulative buy tallies are nonnegative, and every Position row it
writes has nonnegative quantity, average cost and total_invested.  The
Historian's replay, by contrast, does not clamp and can go negative on
oversell (see the counterexample); neither path raises an error. -/
theorem c5_reconciler_nonneg (txs : List Tx) (s : String)
    (hval : ∀ t ∈ txs, 0 ≤ t.quantity ∧ 0 ≤ t.price) :
    (∀ a, aggFor txs s = some a →
      0 ≤ a.current_quantity ∧ 0 ≤ a.total_buy_quantity ∧ 0 ≤ a.total_buy_value) ∧
    (∀ h, update_holdings txs emptyStore s = some h →
      0 ≤ h.quantity ∧ 0 ≤ h.avg_price ∧ 0 ≤ h.total_invested) := by
  have hq : ∀ t ∈ txs.filter (fun t => t.symbol = s), 0 ≤ t.quantity :=
    fun t ht => (hval t (List.mem_of_mem_filter ht)).1
  have hp : ∀ t ∈ txs.filter (fun t => t.symbol = s), 0 ≤ t.price :=
    fun t ht => (hval t (List.mem_of_mem_filter ht)).2
  have hagg : ∀ a, aggFor txs s = some a →
      0 ≤ a.current_quantity ∧ 0 ≤ a.total_buy_quantity ∧ 0 ≤ a.total_buy_value := by
    intro a ha
    unfold aggFor at ha
    cases hf : txs.filter (fun t => t.symbol = s) with
    | nil => rw [hf] at ha; exact absurd ha (by simp)
    | cons t ts =>
      rw [hf] at ha
      rw [Option.some.injEq] at ha
      rw [foldl_aggStep] at ha
      rw [← ha]
      rw [hf] at hq hp
      refine ⟨clampedQtyAux_nonneg _ 0 le_rfl hq, ?_, ?_⟩
      · simpa using buyQty_nonneg _ hq
      · simpa using buyVal_nonneg _ hp
  refine ⟨hagg, ?_⟩
  intro h hh
  rw [update_holdings_char] at hh
  simp only [amendedPosition] at hh
  split at hh
  · next hcond =>
    injection hh with hh
    subst hh
    have havg : (0 : ℚ) ≤ if buyQty (txs.filter (fun t => t.symbol = s)) > 0
        then buyVal (txs.filter (fun t => t.symbol = s))
          / buyQty (txs.filter (fun t => t.symbol = s)) else 0 := by
      by_cases hb : buyQty (txs.filter (fun t => t.symbol = s)) > 0
      · rw [if_pos hb]; exact div_nonneg (buyVal_nonneg _ hp) (buyQty_nonneg _ hq)
      · rw [if_neg hb]
    exact ⟨le_of_lt hcond, havg, mul_nonneg (le_of_lt hcond) havg⟩
  · exact absurd hh (by simp)

/-- Witness for C5 (amended) at the ledger `exC1`: the written row has
nonnegative quantity, average cost and total_invested. -/
theorem c5_witness :
    (∀ t ∈ exC1, 0 ≤ t.quantity ∧ 0 ≤ t.price) ∧
    (0 ≤ (⟨"X", 6, 100, 600, 2⟩ : Holding).quantity ∧
     0 ≤ (⟨"X", 6, 100, 600, 2⟩ : Holding).avg_price ∧
     0 ≤ (⟨"X", 6, 100, 600, 2⟩ : Holding).total_invested) := by
  have hval : ∀ t ∈ exC1, 0 ≤ t.quantity ∧ 0 ≤ t.price := by
    intro t ht
    simp [exC1] at ht
    rcases ht with rfl | rfl <;> norm_num
  refine ⟨hval, (c5_reconciler_nonneg exC1 "X" hval).2 _ ?_⟩
  simp [exC1, update_holdings, aggFor, aggStep, isBuy, isSell, emptyStore, Holding.mk.injEq]
  norm_num

/-- A priced holding (symbol A). -/
def hA : BHolding := ⟨"A", 2, 50, 100, none, none, none⟩

/-- An unpriced holding (symbol B) with total_invested 500. -/
def hB : BHolding := ⟨"B", 5, 100, 500, none, none, none⟩

/-- A live-price lookup that knows A (price 10) but not B. -/
def liveAB : String → Option ℚ := fun s => if s = "A" then some 10 else none

/-- C6. The claim says an unpriced position carries current_valuation equal
to its total_invested with its pricing status flagged stale.
Counterexample: with prices only for A, `get_holdings` returns B unchanged:
its current_valuation stays `none`, not `some 500` (= its total_invested),
and nothing is flagged — the code has no stale marker and applies no
cost-basis fallback at this layer.  (Both positions ARE returned, which is
the part of the claim that holds.) -/
theorem c6_counterexample :
    get_holdings [hA, hB] liveAB 7
      = [⟨"A", 2, 50, 100, some 10, some 20, some 7⟩, hB] ∧
    hB.current_valuation = none ∧ hB.total_invested = 500 ∧
    (none : Option ℚ) ≠ some 500 := by
  refine ⟨?_, rfl, rfl, by simp⟩
  simp [get_holdings, hA, hB, liveAB, BHolding.mk.injEq]
  norm_num

/-- The live overlay `get_holdings` writes onto a priced holding. -/
def pricedOverlay (h : BHolding) (p : ℚ) (now : ℕ) : BHolding :=
  { h with
      current_price := some p,
      current_valuation := some (p * h.quantity),
      last_updated_at := some now }

/-- C6 (amended). A partial price fetch never aborts the read: the result
has exactly one entry per stored holding; a holding whose symbol has a live
price is returned with `current_price`, `current_valuation = price *
quantity` and `last_updated_at` set; a holding without one is returned with
all fields unchanged — no cost-basis fallback valuation and no staleness
flag is applied by this endpoint. -/
theorem c6_partial_prices (hs : List BHolding) (live : String → Option ℚ) (now : ℕ) :
    (get_holdings hs live now).length = hs.length ∧
    ∀ h ∈ hs,
      (live h.symbol = none → h ∈ get_holdings hs live now) ∧
      (∀ p, live h.symbol = some p →
        pricedOverlay h p now ∈ get_holdings hs live now) := by
  constructor
  · simp [get_holdings]
  · intro h hh
    constructor
    · intro hnone
      unfold get_holdings
      refine List.mem_map.mpr ⟨h, hh, ?_⟩
      rw [hnone]
    · intro p hp
      unfold get_holdings
      refine List.mem_map.mpr ⟨h, hh, ?_⟩
      rw [hp, pricedOverlay]

/-- Witness for C6 (amended): with prices only for A, the unpriced holding
`hB` is still among the returned holdings, unchanged. -/
theorem c6_witness :
    hB ∈ [hA, hB] ∧ liveAB hB.symbol = none ∧ hB ∈ get_holdings [hA, hB] liveAB 7 := by
  have hmem : hB ∈ [hA, hB] := by decide
  have hnone : liveAB hB.symbol = none := by simp [liveAB, hB]
  exact ⟨hmem, hnone, ((c6_partial_prices [hA, hB] liveAB 7).2 hB hmem).1 hnone⟩

theorem not_isBuy_of_isSell (t : Tx) (h : isSell t = true) : isBuy t = false := by
  unfold isBuy isSell at *
  rw [decide_eq_true_eq] at h
  rw [h]
  rfl

/-- C7. Selling never changes the average cost of the remaining units: in
the backend Reconciler, appending a SELL to any ledger that leaves a
Position row before and after (quantity > 0 both times) preserves
`avg_price` (the whole-history buy average is untouched by sells); and in
the app service layer a SELL leaves `avg_cost` unchanged verbatim. -/
theorem c7_sell_preserves_avg :
    (∀ (txs : List Tx) (t : Tx) (h h2 : Holding),
      isSell t = true →
      update_holdings txs emptyStore t.symbol = some h →
      update_holdings (txs ++ [t]) emptyStore t.symbol = some h2 →
      h2.avg_price = h.avg_price) ∧
    (∀ (ah : AHolding) (q p : ℚ),
      (add_transaction_direct (some ah) "SELL" q p).map (fun x => x.avg_cost)
        = some ah.avg_cost) := by
  constructor
  · intro txs t h h2 hsell hl hl2
    rw [update_holdings_char] at hl hl2
    simp only [amendedPosition] at hl hl2
    have hbuyF : isBuy t = false := not_isBuy_of_isSell t hsell
    have hfil : (txs ++ [t]).filter (fun x => x.symbol = t.symbol)
        = txs.filter (fun x => x.symbol = t.symbol) ++ [t] := by
      rw [List.filter_append]
      simp
    rw [hfil] at hl2
    have hbq : buyQty (txs.filter (fun x => x.symbol = t.symbol) ++ [t])
        = buyQty (txs.filter (fun x => x.symbol = t.symbol)) := by
      rw [buyQty_eq_sum, buyQty_eq_sum, List.map_append, List.sum_append]
      simp [hbuyF]
    have hbv : buyVal (txs.filter (fun x => x.symbol = t.symbol) ++ [t])
        = buyVal (txs.filter (fun x => x.symbol = t.symbol)) := by
      rw [buyVal_eq_sum, buyVal_eq_sum, List.map_append, List.sum_append]
      simp [hbuyF]
    rw [hbq, hbv] at hl2
    split at hl
    · split at hl2
      · injection hl with hl
        injection hl2 with hl2
        subst hl
        subst hl2
        rfl
      · exact absurd hl2 (by simp)
    · exact absurd hl (by simp)
  · intro ah q p
    simp [add_transaction_direct]

/-- Witness for C7 at a concrete ledger: BUY 10 for 1000, SELL 4; the
Position before the SELL has avg_price 100, after the SELL still 100. -/
theorem c7_witness :
    isSell (⟨"X", "SELL", 4, 480, 2⟩ : Tx) = true ∧
    update_holdings [⟨"X", "BUY", 10, 1000, 1⟩] emptyStore "X"
      = some ⟨"X", 10, 100, 1000, 1⟩ ∧
    update_holdings ([⟨"X", "BUY", 10, 1000, 1⟩] ++ [⟨"X", "SELL", 4, 480, 2⟩]) emptyStore "X"
      = some ⟨"X", 6, 100, 600, 2⟩ ∧
    (⟨"X", 6, 100, 600, 2⟩ : Holding).avg_price = (⟨"X", 10, 100, 1000, 1⟩ : Holding).avg_price := by
  have h1 : update_holdings [(⟨"X", "BUY", 10, 1000, 1⟩ : Tx)] emptyStore "X"
      = some ⟨"X", 10, 100, 1000, 1⟩ := by
    simp [update_holdings, aggFor, aggStep, isBuy, isSell, emptyStore, Holding.mk.injEq]
    norm_num
  have h2 : update_holdings ([(⟨"X", "BUY", 10, 1000, 1⟩ : Tx)] ++ [⟨"X", "SELL", 4, 480, 2⟩])
      emptyStore "X" = some ⟨"X", 6, 100, 600, 2⟩ := by
    simp [update_holdings, aggFor, aggStep, isBuy, isSell, emptyStore, Holding.mk.injEq]
    norm_num
  exact ⟨by decide, h1, h2,
    c7_sell_preserves_avg.1 [⟨"X", "BUY", 10, 1000, 1⟩] ⟨"X", "SELL", 4, 480, 2⟩
      ⟨"X", 10, 100, 1000, 1⟩ ⟨"X", 6, 100, 600, 2⟩ (by decide) h1 h2⟩

/-- The Historian returns the empty list whenever the oracle fails,
regardless of the ledger. -/
theorem gvh_oracle_none (txs : List Tx) (today : ℕ) :
    get_valuation_history txs none today = [] := by
  unfold get_valuation_history
  split
  · rfl
  · rfl

/-- C8. If the historical-price fetch raises (or the downloaded frame has
no usable `Close` table — both are swallowed by the blanket `except`),
`get_valuation_history` returns the empty sequence, never a sequence of
fabricated or zero-valued entries.  The failed oracle is the `none`
argument. -/
theorem c8_oracle_down_empty (txs : List Tx) (today : ℕ) :
    get_valuation_history txs none today = [] :=
  gvh_oracle_none txs today

/-- C9. `get_real_time_prices` never raises (it is total here, as in the
source, whose entire body is wrapped in try/except): on an empty symbol
list it returns the empty dict without touching the download argument; and
when the bulk download raises (`none`) it returns the dict assigning `None`
to every requested symbol — in particular looking up any requested symbol
yields `some none`. -/
theorem c9_price_fetch_failure :
    (∀ d, get_real_time_prices [] d = []) ∧
    (∀ symbols, get_real_time_prices symbols none
      = listToDict (symbols.map (fun s => (s, (none : Option ℚ))))) ∧
    (∀ (symbols : List String) (s : String), s ∈ symbols →
      dictGet (get_real_time_prices symbols none) s = some none) := by
  have h2 : ∀ symbols, get_real_time_prices symbols none
      = listToDict (symbols.map (fun s => (s, (none : Option ℚ)))) := by
    intro symbols
    cases symbols with
    | nil => rfl
    | cons a l => rfl
  refine ⟨fun d => rfl, h2, ?_⟩
  intro symbols s hs
  rw [h2]
  exact dictGet_all_none symbols s hs

/-- Witness for C9: requesting A and B with the download failing yields
`None` for A. -/
theorem c9_witness :
    ("A" ∈ ["A", "B"]) ∧
    dictGet (get_real_time_prices ["A", "B"] none) "A" = some none := by
  have hm : "A" ∈ ["A", "B"] := by decide
  exact ⟨hm, c9_price_fetch_failure.2.2 ["A", "B"] "A" hm⟩

/-- C10. `get_valuation_history` on an empty transaction list returns the
empty sequence whatever the oracle argument is (it never consults it), the
`/valuation-history` endpoint returns the empty list on an empty ledger,
and an empty ledger is indistinguishable at this interface from a fully
unavailable oracle: both produce the empty list. -/
theorem c10_empty_ledger_empty_history :
    (∀ (oracle : Option HistData) (today : ℕ), get_valuation_history [] oracle today = []) ∧
    (∀ (oracle : Option HistData) (today : ℕ), valuation_history [] oracle today = []) ∧
    (∀ (ledger : List Tx) (oracle : Option HistData) (today : ℕ),
      valuation_history ledger none today = valuation_history [] oracle today) := by
  refine ⟨fun o t => rfl, fun o t => rfl, ?_⟩
  intro l o t
  have hr : valuation_history [] o t = [] := rfl
  rw [hr]
  unfold valuation_history
  split
  · rfl
  · exact gvh_oracle_none l t
